import Mathlib

/-!
Verification of the core of the `memoize` site renderer: the path
sanitizer and resource resolver (`src/core.rs`), the Markdown transform
chain (`src/markdown/add_ids.rs`, `src/markdown/toc.rs`,
`src/markdown/rel_links.rs`), the debounced filesystem watch
(`src/watch.rs`), and the scoped worker pool (`src/parallel.rs`).

Rust strings are modelled as Lean `String`/`List Char`; byte indices
returned by `str::find` become character indices, which preserves the
relative order of occurrences (the only thing the code compares).
Filesystem paths are modelled as lists of component names, and the
filesystem itself as a pair of oracles `isFile`/`isDir`.
-/

set_option maxRecDepth 4000

namespace Memoize

/-! Part: Path sanitizer (`src/core.rs`, `ignore_filename` and `sanitize_path`) -/

/-- Does a string start with the given character?  Models
`name.as_encoded_bytes().starts_with(...)` for a one-byte (ASCII) pattern. -/
def starts_with_char (s : String) (c : Char) : Bool :=
  match s.toList with
  | [] => false
  | c2 :: _ => c2 = c

/-- Rust `core::ignore_filename`: skip hidden files (prefixed with `.`
but not equal to `.`) and ones starting with `_`. -/
def ignore_filename (name : String) : Bool :=
  (!(name = ".") && starts_with_char name '.') || starts_with_char name '_'

/-- A path component in the sense of Rust `std::path::Component`:
a drive/volume marker (`Prefix`), the root directory, `.`, `..`, or a
normal named component. -/
inductive PathComp where
  | drive : PathComp
  | rootDir : PathComp
  | curDir : PathComp
  | parentDir : PathComp
  | normal : String → PathComp
deriving DecidableEq

/-- Rust `core::sanitize_path`, over an already-decomposed component list:
reject `..`, drive prefixes and ignored names; strip the root marker and
`.`; keep the remaining named components in order. -/
def sanitize_path : List PathComp → Option (List String)
  | [] => some []
  | PathComp.normal n :: rest =>
      if ignore_filename n then none
      else (sanitize_path rest).map (fun l => n :: l)
  | PathComp.parentDir :: _ => none
  | PathComp.drive :: _ => none
  | PathComp.rootDir :: rest => sanitize_path rest
  | PathComp.curDir :: rest => sanitize_path rest

/-- Split a character list on `/`. -/
def split_slash : List Char → List (List Char)
  | [] => [[]]
  | c :: rest =>
      let r := split_slash rest
      if c = '/' then [] :: r
      else
        match r with
        | [] => [[c]]
        | g :: gs => (c :: g) :: gs

/-- Decompose a Unix-style path string into components, as
`Path::new(path).components()` does: a leading `/` yields the root
marker, empty fragments disappear, `.` and `..` become the special
components.  (Rust silently drops a non-leading `.` component; here it
becomes `curDir`, which `sanitize_path` drops in exactly the same way,
so the two pipelines agree.) -/
def components (s : String) : List PathComp :=
  let parts := (split_slash s.toList).filter (fun p => !(p.isEmpty))
  let comps := parts.map (fun p =>
    if p = ['.'] then PathComp.curDir
    else if p = ['.', '.'] then PathComp.parentDir
    else PathComp.normal (String.mk p))
  match s.toList with
  | '/' :: _ => PathComp.rootDir :: comps
  | _ => comps

/-- String-level `sanitize_path`, composing component decomposition with
the component-level sanitizer. -/
def sanitize_path_str (s : String) : Option (List String) :=
  sanitize_path (components s)

/-- Is a component one that makes `sanitize_path` reject the whole path? -/
def comp_rejected : PathComp → Bool
  | PathComp.parentDir => true
  | PathComp.drive => true
  | PathComp.normal n => ignore_filename n
  | _ => false

/-- The name carried by a normal component, if any. -/
def normal_name : PathComp → Option String
  | PathComp.normal n => some n
  | _ => none

/-! Part: Resource resolver (`src/core.rs`, `Context::resolve_resource`) -/

/-- Rust `core::Resource`. -/
inductive Resource where
  | Static : List String → Resource
  | Note : List String → Resource
  | Directory : List String → Resource
deriving DecidableEq

/-- An abstract filesystem: which paths are regular files, which are
directories.  Paths are component lists. -/
structure FS where
  isFile : List String → Bool
  isDir : List String → Bool

/-- Split a file name at its final `.`: returns the part before and
after the last dot, or `none` if there is no dot. -/
def splitLastDot : List Char → Option (List Char × List Char)
  | [] => none
  | c :: rest =>
      match splitLastDot rest with
      | some (s, e) => some (c :: s, e)
      | none => if c = '.' then some ([], rest) else none

/-- Rust `Path::extension` restricted to a single file name: `none` if
there is no dot, or if the name begins with `.` and has no other dot;
otherwise the portion after the final dot. -/
def rust_extension (name : String) : Option String :=
  match name.toList with
  | [] => none
  | c :: rest =>
      if c = '.' then (splitLastDot rest).map (fun p => String.mk p.2)
      else (splitLastDot (c :: rest)).map (fun p => String.mk p.2)

/-- Rust `Path::file_stem` restricted to a single file name: the part
before the final dot under the same convention as `rust_extension`. -/
def rust_stem (name : String) : String :=
  match name.toList with
  | [] => ""
  | c :: rest =>
      if c = '.' then
        match splitLastDot rest with
        | some (s, _) => String.mk ('.' :: s)
        | none => name
      else
        match splitLastDot (c :: rest) with
        | some (s, _) => String.mk s
        | none => name

/-- Rust `PathBuf::set_extension` on a single file name: replace the
extension (everything after the final dot, under the `rust_extension`
convention) with `e`. -/
def set_ext_name (name : String) (e : String) : String :=
  rust_stem name ++ "." ++ e

/-- Lifting of `set_extension` to a component-list path: rewrite the final
component's extension; an empty path is unchanged (Rust returns `false`
and does nothing when there is no file name). -/
def set_extension : List String → String → List String
  | [], _ => []
  | [n], e => [set_ext_name n e]
  | n :: rest, e => n :: set_extension rest e

/-- The extension of the final component of a path, if any. -/
def path_extension : List String → Option String
  | [] => none
  | [n] => rust_extension n
  | _ :: rest => path_extension rest

/-- The body of `Context::resolve_resource` after sanitization: check
the verbatim path as a file, then as a directory, then fall back to the
`.html` → `.md` note lookup. -/
def resolve_from (fs : FS) (root rel : List String) : Option Resource :=
  let src := root ++ rel
  if fs.isFile src then some (Resource.Static src)
  else if fs.isDir src then some (Resource.Directory src)
  else
    match path_extension rel with
    | some e =>
        if e = "html" then
          let md := set_extension src "md"
          if fs.isFile md then some (Resource.Note md) else none
        else none
    | none => none

/-- Rust `Context::resolve_resource`: sanitize the requested path, then
resolve it under the source root. -/
def resolve_resource (fs : FS) (root : List String) (rel : String) : Option Resource :=
  (sanitize_path_str rel).bind (resolve_from fs root)

/-! Part: Absolute-URL classifier (`src/markdown/rel_links.rs`) -/

/-- Index of the first occurrence of a character, modelling `str::find(char)`
(character positions instead of byte offsets; the code only compares the
relative order of positions in one string, which both index kinds agree on). -/
def find_char : List Char → Char → Option Nat
  | [], _ => none
  | c :: rest, t => if c = t then some 0 else (find_char rest t).map (fun n => n + 1)

/-- Does the list start with `/`? -/
def head_is_slash : List Char → Bool
  | '/' :: _ => true
  | _ => false

/-- Index of the first occurrence of the two-character pattern `//`,
modelling `str::find("//")`. -/
def find_slash2 : List Char → Option Nat
  | [] => none
  | c :: rest =>
      if c = '/' && head_is_slash rest then some 0
      else (find_slash2 rest).map (fun n => n + 1)

/-- Rust `rel_links::is_absolute_url`.  The Rust `match` uses a guard
`(Some(c), Some(s)) if c < s`; the fall-through to the `(_, Some(s))` arm
is written out explicitly here. -/
def is_absolute_url (url : String) : Bool :=
  match find_char url.data ':', find_char url.data '/' with
  | some c, some s =>
      if c < s then true
      else
        match find_slash2 url.data with
        | some ss => decide (ss ≤ s)
        | none => false
  | none, some s =>
      match find_slash2 url.data with
      | some ss => decide (ss ≤ s)
      | none => false
  | _, none => false

/-- The absolute-URL classifier as the specification words it: absolute
iff the URL contains a scheme delimiter `:` appearing before any path
separator `/`, or it begins with the protocol-relative prefix `//`. -/
def spec_absolute_url (url : String) : Bool :=
  (match find_char url.data ':', find_char url.data '/' with
   | some c, some s => decide (c < s)
   | some _, none => true
   | _, _ => false) ||
  head_is_slash url.data && head_is_slash (url.data.drop 1)

/-! Part: Markdown event model and the relative-link rewriter -/

/-- The link types distinguished by pulldown-cmark.  The rewriter passes
this field through untouched, which is what makes reference-style and
inline-style links behave identically. -/
inductive LinkType where
  | inline | reference | referenceUnknown | collapsed | collapsedUnknown
  | shortcut | shortcutUnknown | autolink | email
deriving DecidableEq

/-- Heading depths 1–6, modelling pulldown-cmark `HeadingLevel`. -/
inductive HeadingLevel where
  | h1 | h2 | h3 | h4 | h5 | h6
deriving DecidableEq

/-- The pulldown-cmark events the three adapters inspect.  Every event
kind none of them looks at is collapsed into the opaque `other`. -/
inductive MdEvent where
  | startHeading (level : HeadingLevel) (id : Option String)
      (classes : List String) (attrs : List (String × Option String))
  | endHeading (level : HeadingLevel)
  | startLink (ltype : LinkType) (dest_url : String) (title : String) (id : String)
  | text (s : String)
  | other (tag : Nat)
deriving DecidableEq

/-- Rust `rel_links::rewrite_url`: split at the last `.` (as
`rsplit_once(".")` does) and, when the extension is exactly `md`,
replace it with `html`; otherwise return the URL unchanged. -/
def rewrite_url (url : String) : String :=
  match splitLastDot url.data with
  | some (base, e) => if e = ['m', 'd'] then String.mk base ++ ".html" else url
  | none => url

/-- Does the URL's post-last-dot extension equal `md`?  (The condition
under which `rewrite_url` rewrites.) -/
def md_dest (url : String) : Bool :=
  match splitLastDot url.data with
  | some (_, e) => e = ['m', 'd']
  | none => false

/-- Rust `RewriteRelativeLinks::next`, applied along a whole stream:
each link-start event has its destination rewritten when relative, and
every other event passes through unchanged. -/
def rewriteRelativeLinks (events : List MdEvent) : List MdEvent :=
  events.map (fun e =>
    match e with
    | MdEvent.startLink lt dest title id =>
        MdEvent.startLink lt
          (if is_absolute_url dest then dest else rewrite_url dest) title id
    | e2 => e2)

/-- The destination field of a link-start event, if it is one. -/
def link_dest_out : MdEvent → Option String
  | MdEvent.startLink _ d _ _ => some d
  | _ => none

/-! Part: Heading-ID injector (`src/markdown/add_ids.rs`) -/

/-- Rust `char::is_alphanumeric`.  The Rust predicate is Unicode-aware;
this model uses the ASCII alphanumeric test, with which it agrees on all
ASCII input (the range the claims exercise). -/
def is_alphanumeric (c : Char) : Bool :=
  c.isAlphanum

/-- One character step of `slug_append`: the accumulator is the buffer
built so far together with the `last_is_dash` flag.  Alphanumerics are
lowercased via ASCII lowering (Rust `to_ascii_lowercase`, which is what
`Char.toLower` implements); each run of other characters contributes a
single `-`. -/
def slug_step (acc : String × Bool) (c : Char) : String × Bool :=
  if is_alphanumeric c then (acc.1.push c.toLower, false)
  else if acc.2 then acc
  else (acc.1.push '-', true)

/-- Rust `slug_append` (`src/markdown/add_ids.rs`): append the slug of
`s` to `buf`.  The `last_is_dash` run state is local to each call: it
starts afresh at `false` every time. -/
def slug_append (buf : String) (s : String) : String :=
  (s.data.foldl slug_step (buf, false)).1

/-- Extend a slug accumulator by one event, as the loop body of
`consume_heading` does: text events are slug-appended, everything else
leaves the slug alone. -/
def slug_of_event (acc : String) : MdEvent → String
  | MdEvent.text s => slug_append acc s
  | _ => acc

/-- The slug `consume_heading` computes for a heading body: the
per-text-event slugs appended in order, starting from the empty
string. -/
def heading_slug (body : List MdEvent) : String :=
  body.foldl slug_of_event ""

/-- The scanning loop of Rust `AddHeadingIds::consume_heading`: buffer
events (and fold text into the slug) up to and including the first
heading-end event; returns the buffered events, the slug, and the
remaining input. -/
def consume_go : List MdEvent → String → List MdEvent × String × List MdEvent
  | [], slug => ([], slug, [])
  | e :: rest, slug =>
      match e with
      | MdEvent.endHeading lvl => ([MdEvent.endHeading lvl], slug, rest)
      | MdEvent.text s =>
          let r := consume_go rest (slug_append slug s)
          (MdEvent.text s :: r.1, r.2.1, r.2.2)
      | e2 =>
          let r := consume_go rest slug
          (e2 :: r.1, r.2.1, r.2.2)

/-- Rust `AddHeadingIds::consume_heading`, including its entry
assertion: with a non-empty buffer it fails with the fatal
"nested headings are not allowed" message, otherwise it scans the
heading span. -/
def consume_heading (buffer : List MdEvent) (iter : List MdEvent) :
    Except String (List MdEvent × String × List MdEvent) :=
  if buffer.isEmpty then
    let r := consume_go iter ""
    Except.ok (buffer ++ r.1, r.2.1, r.2.2)
  else Except.error "nested headings are not allowed"

/-- Rust `AddHeadingIds::next`, run to exhaustion.  `buffer` holds the
events queued up from a processed heading — `next` pops those verbatim
before consulting the underlying iterator again, which is why
`consume_heading` is only ever entered with an empty buffer. -/
def addIds_run (buffer iter : List MdEvent) : Except String (List MdEvent) :=
  match buffer with
  | e :: brest => (addIds_run brest iter).map (fun out => e :: out)
  | [] =>
      match iter with
      | [] => Except.ok []
      | e :: irest =>
          match e with
          | MdEvent.startHeading lvl none cls attrs =>
              match h : consume_heading [] irest with
              | Except.error msg => Except.error msg
              | Except.ok (buf, slug, irest2) =>
                  (addIds_run buf irest2).map
                    (fun out => MdEvent.startHeading lvl (some slug) cls attrs :: out)
          | e2 => (addIds_run [] irest).map (fun out => e2 :: out)
termination_by buffer.length + iter.length
decreasing_by
  · simp only [List.length_cons]
    omega
  · have key : ∀ (l : List MdEvent) (sl : String),
        ((consume_go l sl).1).length + ((consume_go l sl).2.2).length = l.length := by
      intro l
      induction l with
      | nil => intro sl; rfl
      | cons e rest ih =>
          intro sl
          cases e with
          | endHeading lvl => simp [consume_go] <;> omega
          | text s =>
              have hk := ih (slug_append sl s)
              simp only [consume_go, List.length_cons]
              omega
          | startHeading l i c a =>
              have hk := ih sl
              simp only [consume_go, List.length_cons]
              omega
          | startLink lt d t i =>
              have hk := ih sl
              simp only [consume_go, List.length_cons]
              omega
          | other n =>
              have hk := ih sl
              simp only [consume_go, List.length_cons]
              omega
    simp only [consume_heading, List.isEmpty_nil, if_true, List.nil_append,
      Except.ok.injEq, Prod.mk.injEq] at h
    obtain ⟨hbuf, hslug, hrest⟩ := h
    subst hbuf
    subst hrest
    have hk := key irest ""
    simp only [List.length_cons, List.length_nil]
    omega
  · simp only [List.length_cons]
    omega

/-- The whole adapter: run with an initially empty buffer. -/
def addHeadingIds (iter : List MdEvent) : Except String (List MdEvent) :=
  addIds_run [] iter

/-- Is this a heading-start event without an explicit ID (the only
event kind the injector transforms)? -/
def bare_heading_start : MdEvent → Bool
  | MdEvent.startHeading _ none _ _ => true
  | _ => false

/-- Is this a heading-end event? -/
def is_end_heading : MdEvent → Bool
  | MdEvent.endHeading _ => true
  | _ => false

/-! Part: Table-of-contents collector (`src/markdown/toc.rs`) -/

/-- Rust `toc::TocEntry`. -/
structure TocEntry where
  level : HeadingLevel
  id : Option String
  title : String
deriving DecidableEq

/-- Append text to the title of the last entry, as the collector's
`self.entries.last_mut()` update does; `none` when there is no entry
(the collector's "no entry created for heading" panic). -/
def append_title_last : List TocEntry → String → Option (List TocEntry)
  | [], _ => none
  | [en], s => some [⟨en.level, en.id, en.title ++ s⟩]
  | en :: rest, s => (append_title_last rest s).map (fun l => en :: l)

/-- Rust `TableOfContents::next`, run along the whole stream: every
event passes through unchanged while the entries vector accumulates;
`inH` is the `in_heading` flag, and the two `Except.error` branches
model the collector's assertion and panic. -/
def tocRun : List MdEvent → Bool → List TocEntry →
    Except String (List MdEvent × List TocEntry)
  | [], _, entries => Except.ok ([], entries)
  | e :: rest, inH, entries =>
      match e with
      | MdEvent.startHeading lvl id _ _ =>
          (tocRun rest true (entries ++ [⟨lvl, id, ""⟩])).map
            (fun r => (e :: r.1, r.2))
      | MdEvent.endHeading _ =>
          if inH then
            (tocRun rest false entries).map (fun r => (e :: r.1, r.2))
          else Except.error "heading ended without starting"
      | MdEvent.text s =>
          if inH then
            match append_title_last entries s with
            | some entries2 =>
                (tocRun rest inH entries2).map (fun r => (e :: r.1, r.2))
            | none => Except.error "no entry created for heading"
          else (tocRun rest inH entries).map (fun r => (e :: r.1, r.2))
      | _ =>
          (tocRun rest inH entries).map (fun r => (e :: r.1, r.2))

/-- The concatenated text of one heading span (up to the first
heading-end event), with the events remaining after that end. -/
def headingSpan : List MdEvent → String × List MdEvent
  | [] => ("", [])
  | MdEvent.endHeading _ :: rest => ("", rest)
  | MdEvent.text s :: rest =>
      let r := headingSpan rest
      (s ++ r.1, r.2)
  | _ :: rest => headingSpan rest

/-- Specification-side extraction of the table of contents: one entry
per heading in document order, carrying the heading's level, its ID, and
the concatenation of the text events inside its span. -/
def toc_spec : List MdEvent → List TocEntry
  | [] => []
  | MdEvent.startHeading lvl id _ _ :: rest =>
      ⟨lvl, id, (headingSpan rest).1⟩ :: toc_spec (headingSpan rest).2
  | _ :: rest => toc_spec rest
termination_by events => events.length
decreasing_by
  · have key : ∀ (l : List MdEvent), (headingSpan l).2.length ≤ l.length := by
      intro l
      induction l with
      | nil => simp [headingSpan]
      | cons e2 rest2 ih =>
          cases e2 with
          | endHeading l2 => simpa [headingSpan] using Nat.le_succ rest2.length
          | text s => simpa [headingSpan] using Nat.le_succ_of_le ih
          | startHeading l2 i c a => simpa [headingSpan] using Nat.le_succ_of_le ih
          | startLink lt d t i => simpa [headingSpan] using Nat.le_succ_of_le ih
          | other n => simpa [headingSpan] using Nat.le_succ_of_le ih
    have hk := key rest
    simp only [List.length_cons]
    omega
  · simp only [List.length_cons]
    omega

/-- Is a stream well formed with respect to headings, starting from a
given `in_heading` state: starts and ends alternate, never nest, and
every heading is closed by the end of the stream. -/
def balanced_from : Bool → List MdEvent → Bool
  | inH, [] => !inH
  | inH, e :: rest =>
      match e with
      | MdEvent.startHeading _ _ _ _ => !inH && balanced_from true rest
      | MdEvent.endHeading _ => inH && balanced_from false rest
      | _ => balanced_from inH rest

/-- Is this a heading-start event (with or without an ID)? -/
def is_start_heading : MdEvent → Bool
  | MdEvent.startHeading _ _ _ _ => true
  | _ => false

/-- Number of heading-start events in a stream. -/
def count_heading_starts (events : List MdEvent) : Nat :=
  events.countP (fun e => is_start_heading e)

/-- Number of heading-end events in a stream. -/
def count_heading_ends (events : List MdEvent) : Nat :=
  events.countP (fun e => is_end_heading e)

/-! Part: Filesystem watch (`src/watch.rs`) -/

/-- Strip a base path from the front of a path, modelling
`Path::strip_prefix` on component lists (both absolute). -/
def strip_base : List String → List String → Option (List String)
  | [], p => some p
  | _ :: _, [] => none
  | b :: bs, c :: cs => if b = c then strip_base bs cs else none

/-- Rust `watch::ignore_path`: a path outside every base is ignored;
under the first base containing it, the path is ignored when any
remaining component matches the ignored-name predicate. -/
def ignore_path (bases : List (List String)) (path : List String) : Bool :=
  match bases with
  | [] => true
  | b :: rest =>
      match strip_base b path with
      | some frag => frag.any (fun n => ignore_filename n)
      | none => ignore_path rest path

/-- The notify event kinds the handler distinguishes: only
`Modify(Data(_))` qualifies; every other kind is dropped. -/
inductive FsEventKind where
  | modifyData | modifyMeta | create | remove | access | otherKind
deriving DecidableEq

/-- A raw filesystem notification: a kind plus the affected paths. -/
structure FsEvent where
  kind : FsEventKind
  paths : List (List String)

/-- Does a delivered notification qualify to trigger a reload: it is
`Ok`, it is a data modification, and no affected path is ignored? -/
def qualifying (bases : List (List String)) (res : Option FsEvent) : Bool :=
  match res with
  | some ev =>
      (match ev.kind with
       | FsEventKind.modifyData => true
       | _ => false) &&
      !(ev.paths.any (fun p => ignore_path bases p))
  | none => false

/-- The debounce window in milliseconds (`DEBOUNCE_INTERVAL`). -/
def DEBOUNCE_INTERVAL : Nat := 100

/-- Rust `Handler::handle_event`, at monotonic instant `now`
(milliseconds): any event arriving within the debounce window of
`last_event` is dropped outright (not queued); otherwise a qualifying
event updates `last_event` and sends one reload signal. -/
def handle_event (bases : List (List String)) (last_event now : Nat)
    (res : Option FsEvent) : Nat × Bool :=
  if now - last_event < DEBOUNCE_INTERVAL then (last_event, false)
  else if qualifying bases res then (now, true) else (last_event, false)

/-- Fold `handle_event` over a timed notification sequence, returning
the final `last_event` state and the number of reload signals sent. -/
def run_events (bases : List (List String)) :
    Nat → List (Nat × Option FsEvent) → Nat × Nat
  | last, [] => (last, 0)
  | last, (t, r) :: rest =>
      let s := handle_event bases last t r
      let k := run_events bases s.1 rest
      (k.1, (if s.2 then 1 else 0) + k.2)

/-! Part: Worker pool (`src/parallel.rs`) -/

/-- A snapshot of the scoped worker pool of `scope_with_sizes`: the
bounded channel contents (`queued`, FIFO), the tasks currently held by
workers (`running`), the tasks run to completion (`done`), everything
ever submitted (`submitted`), and whether the scope body has returned
(dropping the sender, which closes the channel). -/
structure PoolState where
  queued : List Nat
  running : List Nat
  done : List Nat
  submitted : List Nat
  bodyDone : Bool
deriving DecidableEq

/-- The pool's state when the scope opens: nothing submitted, channel
open. -/
def initState : PoolState :=
  PoolState.mk [] [] [] [] false

/-- One interleaving step of the pool of `scope_with_sizes`, with
channel capacity `cap` and `threads` workers: the scope body may submit
a task while it is still running and the bounded channel has room
(`pool.spawn`, i.e. `tx.send`, which blocks on a full channel); the body
may return; an idle worker may `recv` the head task from the channel;
and a worker may run its task to completion. -/
inductive PoolStep (cap threads : Nat) : PoolState → PoolState → Prop
  | submit (s : PoolState) (t : Nat)
      (hopen : s.bodyDone = false) (hcap : s.queued.length < cap) :
      PoolStep cap threads s
        (PoolState.mk (s.queued ++ [t]) s.running s.done (s.submitted ++ [t]) false)
  | finishBody (s : PoolState) (hopen : s.bodyDone = false) :
      PoolStep cap threads s
        (PoolState.mk s.queued s.running s.done s.submitted true)
  | take (s : PoolState) (t : Nat) (rest : List Nat)
      (hq : s.queued = t :: rest) (hw : s.running.length < threads) :
      PoolStep cap threads s
        (PoolState.mk rest (t :: s.running) s.done s.submitted s.bodyDone)
  | finish (s : PoolState) (t : Nat) (ht : t ∈ s.running) :
      PoolStep cap threads s
        (PoolState.mk s.queued (s.running.erase t) (t :: s.done) s.submitted s.bodyDone)

/-- Reachability of a pool state through any interleaving of steps. -/
def PoolReach (cap threads : Nat) : PoolState → PoolState → Prop :=
  Relation.ReflTransGen (PoolStep cap threads)

/-- The scope of `scope_with_sizes` has exited: the body returned (so
the sender was dropped and the channel closed), every worker drained the
channel until `recv` failed, and `thread::scope` joined all workers, so
none still holds a task. -/
def scope_exited (s : PoolState) : Prop :=
  s.bodyDone = true ∧ s.queued = [] ∧ s.running = []

/-! Part: Theorems -/

/-- Replacing the extension of the last component of a path only touches
that component. -/
theorem set_extension_append (xs : List String) (n e : String) :
    set_extension (xs ++ [n]) e = xs ++ [set_ext_name n e] := by
  induction xs with
  | nil => rfl
  | cons x xs ih =>
      cases xs with
      | nil => rfl
      | cons y ys =>
          simp only [List.cons_append] at ih ⊢
          simp only [set_extension]
          rw [ih]

/-- C1: `sanitize_path` returns no result exactly when some component is
a parent-directory reference, a drive/volume marker, or a named
component matching the ignored-name predicate; otherwise it returns the
surviving named components in order (root markers and `.` silently
discarded), and every returned component is a non-ignored plain name
distinct from `..`, so joining the result under a base directory cannot
escape that base. -/
theorem sanitize_path_spec (cs : List PathComp) :
    (sanitize_path cs = none ↔ ∃ c ∈ cs, comp_rejected c = true) ∧
    (∀ l, sanitize_path cs = some l →
      l = cs.filterMap normal_name ∧
      ∀ n ∈ l, ignore_filename n = false ∧ n ≠ "..") := by
  have hdd : ignore_filename ".." = true := by decide
  induction cs with
  | nil =>
      refine ⟨by simp [sanitize_path], ?_⟩
      intro l hl
      simp only [sanitize_path, Option.some.injEq] at hl
      subst hl
      simp
  | cons c rest ih =>
      cases c with
      | drive =>
          refine ⟨by simp [sanitize_path, comp_rejected], ?_⟩
          intro l hl
          simp [sanitize_path] at hl
      | parentDir =>
          refine ⟨by simp [sanitize_path, comp_rejected], ?_⟩
          intro l hl
          simp [sanitize_path] at hl
      | rootDir =>
          refine ⟨?_, ?_⟩
          · simpa [sanitize_path, comp_rejected] using ih.1
          · intro l hl
            have h2 := ih.2 l (by simpa [sanitize_path] using hl)
            simpa [normal_name] using h2
      | curDir =>
          refine ⟨?_, ?_⟩
          · simpa [sanitize_path, comp_rejected] using ih.1
          · intro l hl
            have h2 := ih.2 l (by simpa [sanitize_path] using hl)
            simpa [normal_name] using h2
      | normal n =>
          by_cases hn : ignore_filename n = true
          · refine ⟨?_, ?_⟩
            · simp [sanitize_path, hn, comp_rejected]
            · intro l hl
              simp [sanitize_path, hn] at hl
          · refine ⟨?_, ?_⟩
            · rw [show sanitize_path (PathComp.normal n :: rest)
                    = (sanitize_path rest).map (fun l => n :: l) from by
                  simp [sanitize_path, hn]]
              rw [Option.map_eq_none']
              rw [ih.1]
              simp [comp_rejected, hn]
            · intro l hl
              rw [show sanitize_path (PathComp.normal n :: rest)
                    = (sanitize_path rest).map (fun l => n :: l) from by
                  simp [sanitize_path, hn]] at hl
              rw [Option.map_eq_some'] at hl
              obtain ⟨a, ha, hla⟩ := hl
              subst hla
              have h2 := ih.2 a ha
              constructor
              · simp [List.filterMap_cons, normal_name, h2.1]
              · intro m hm
                rcases List.mem_cons.mp hm with hm1 | hm2
                · subst hm1
                  refine ⟨by simpa using hn, ?_⟩
                  intro hmd
                  subst hmd
                  exact hn hdd
                · exact h2.2 m hm2

/-- Witness for C1: a concrete accepted path obeys the non-escape
guarantee. -/
theorem sanitize_path_spec_witness :
    ignore_filename "hi.txt" = false ∧ "hi.txt" ≠ ".." :=
  ((sanitize_path_spec
        [PathComp.rootDir, PathComp.normal "dir", PathComp.normal "hi.txt"]).2
      ["dir", "hi.txt"] (by decide)).2 "hi.txt" (by decide)

/-- C2: resource resolution checks the verbatim path as a regular file,
then as a directory, and only then falls back to the `.html` → `.md`
note substitution; in particular a real `foo.html` on disk always wins
over `foo.md`, and with only `foo.md` present a request for `foo.html`
resolves to the note. -/
theorem resolve_resource_spec (fs : FS) (root p : List String) :
    (resolve_from fs root p =
      if fs.isFile (root ++ p) = true then some (Resource.Static (root ++ p))
      else if fs.isDir (root ++ p) = true then some (Resource.Directory (root ++ p))
      else if path_extension p = some "html" ∧
              fs.isFile (set_extension (root ++ p) "md") = true then
        some (Resource.Note (set_extension (root ++ p) "md"))
      else none) ∧
    (fs.isFile (root ++ ["foo.html"]) = true →
      resolve_from fs root ["foo.html"] = some (Resource.Static (root ++ ["foo.html"]))) ∧
    (fs.isFile (root ++ ["foo.html"]) = false →
      fs.isDir (root ++ ["foo.html"]) = false →
      fs.isFile (root ++ ["foo.md"]) = true →
      resolve_from fs root ["foo.html"] = some (Resource.Note (root ++ ["foo.md"]))) := by
  have hext : path_extension ["foo.html"] = some "html" := by decide
  have hset : set_extension (root ++ ["foo.html"]) "md" = root ++ ["foo.md"] := by
    rw [set_extension_append]
    norm_num [show set_ext_name "foo.html" "md" = "foo.md" from by decide]
  refine ⟨?_, ?_, ?_⟩
  · by_cases h1 : fs.isFile (root ++ p) = true
    · simp [resolve_from, h1]
    · by_cases h2 : fs.isDir (root ++ p) = true
      · simp [resolve_from, h1, h2]
      · cases he : path_extension p with
        | none => simp [resolve_from, h1, h2, he]
        | some e =>
            by_cases h3 : e = "html"
            · subst h3
              by_cases h4 : fs.isFile (set_extension (root ++ p) "md") = true
              · simp [resolve_from, h1, h2, he, h4]
              · simp [resolve_from, h1, h2, he, h4]
            · simp [resolve_from, h1, h2, he, h3]
  · intro h1
    simp [resolve_from, h1]
  · intro h1 h2 h3
    simp [resolve_from, h1, h2, hext, hset, h3]

/-- Witness for C2: with only `foo.md` on disk, a request for
`foo.html` resolves to the note `foo.md`. -/
theorem resolve_resource_spec_witness :
    resolve_from
        ⟨fun q => decide (q = ["foo.md"]), fun _ => false⟩
        [] ["foo.html"] = some (Resource.Note ["foo.md"]) :=
  (resolve_resource_spec ⟨fun q => decide (q = ["foo.md"]), fun _ => false⟩ [] ["foo.html"]).2.2
    (by decide) (by decide) (by decide)

/-- Wherever `//` first occurs, a `/` occurs at that position or
earlier. -/
theorem find_char_le_find_slash2 (cs : List Char) (m : Nat)
    (h : find_slash2 cs = some m) :
    ∃ s, find_char cs '/' = some s ∧ s ≤ m := by
  induction cs generalizing m with
  | nil => simp [find_slash2] at h
  | cons c rest ih =>
      unfold find_slash2 at h
      by_cases hc : (c = '/' && head_is_slash rest) = true
      · rw [if_pos hc] at h
        have hm := Option.some.inj h
        subst hm
        rw [Bool.and_eq_true] at hc
        have hcs : c = '/' := of_decide_eq_true hc.1
        refine ⟨0, ?_, Nat.le_refl 0⟩
        unfold find_char
        rw [if_pos hcs]
      · rw [if_neg hc] at h
        rw [Option.map_eq_some'] at h
        obtain ⟨m2, hm2, hm⟩ := h
        subst hm
        obtain ⟨s2, hs2, hle⟩ := ih m2 hm2
        by_cases hcs : c = '/'
        · refine ⟨0, ?_, Nat.zero_le _⟩
          unfold find_char
          rw [if_pos hcs]
        · refine ⟨s2 + 1, ?_, by omega⟩
          unfold find_char
          simp [hcs, hs2]

/-- C3 counterexample: `a//b` contains no `:` and does not begin with
`//`, so the claim classifies it relative, yet the code classifies it
absolute (its first `//` starts exactly at its first `/`). -/
theorem absolute_url_claim_counterexample :
    is_absolute_url "a//b" = true ∧
    spec_absolute_url "a//b" = false ∧
    find_char "a//b".data ':' = none ∧
    find_slash2 "a//b".data = some 1 := by decide

/-- C3 amended: the classifier deems a URL absolute iff it contains a
path separator `/` and either the first `:` occurs strictly before the
first `/`, or the first occurrence of `//` starts exactly at the first
`/` (so protocol-relative detection triggers wherever the first slash
begins a double slash, not only at the start of the string); a URL with
no `/` at all is always classified relative, even when it contains `:`. -/
theorem absolute_url_amended (url : String) :
    is_absolute_url url = true ↔
      ∃ s, find_char url.data '/' = some s ∧
        ((∃ c, find_char url.data ':' = some c ∧ c < s) ∨
          find_slash2 url.data = some s) := by
  unfold is_absolute_url
  cases hc : find_char url.data ':' with
  | none =>
      cases hs : find_char url.data '/' with
      | none =>
          change false = true ↔ _
          simp
      | some s =>
          cases hss : find_slash2 url.data with
          | none =>
              change false = true ↔ _
              simp
          | some ss =>
              obtain ⟨s2, hs2, hle⟩ := find_char_le_find_slash2 _ _ hss
              rw [hs] at hs2
              have hse : s = s2 := Option.some.inj hs2
              subst hse
              change decide (ss ≤ s) = true ↔ _
              simp only [decide_eq_true_eq, Option.some.injEq]
              constructor
              · intro h
                exact ⟨s, rfl, Or.inr (by omega)⟩
              · rintro ⟨s3, hs3, (⟨c2, hcc, hcl⟩ | h2)⟩
                · cases hcc
                · omega
  | some c =>
      cases hs : find_char url.data '/' with
      | none =>
          change false = true ↔ _
          simp
      | some s =>
          change (if c < s then true
            else match find_slash2 url.data with
              | some ss => decide (ss ≤ s)
              | none => false) = true ↔ _
          by_cases hlt : c < s
          · rw [if_pos hlt]
            constructor
            · intro _
              exact ⟨s, rfl, Or.inl ⟨c, rfl, hlt⟩⟩
            · intro _
              rfl
          · rw [if_neg hlt]
            cases hss : find_slash2 url.data with
            | none =>
                change false = true ↔ _
                simp [hlt]
            | some ss =>
                obtain ⟨s2, hs2, hle⟩ := find_char_le_find_slash2 _ _ hss
                rw [hs] at hs2
                have hse : s = s2 := Option.some.inj hs2
                subst hse
                change decide (ss ≤ s) = true ↔ _
                simp only [decide_eq_true_eq, Option.some.injEq]
                constructor
                · intro h
                  exact ⟨s, rfl, Or.inr (by omega)⟩
                · rintro ⟨s3, hs3, (⟨c2, hcc, hcl⟩ | h2)⟩
                  · omega
                  · omega

/-- Appending `.md` to any string makes the final-dot split return that
`md` extension. -/
theorem splitLastDot_append_md (l : List Char) :
    splitLastDot (l ++ ['.', 'm', 'd']) = some (l, ['m', 'd']) := by
  induction l with
  | nil => rfl
  | cons c l ih => simp [splitLastDot, ih]

/-- Concatenation of strings concatenates their character lists. -/
theorem string_data_append (a b : String) :
    (a ++ b).data = a.data ++ b.data := by
  cases a
  cases b
  rfl

/-- A URL whose extension is not `md` is left unchanged by
`rewrite_url`. -/
theorem rewrite_url_non_md (url : String) (h : md_dest url = false) :
    rewrite_url url = url := by
  unfold rewrite_url
  unfold md_dest at h
  cases hsp : splitLastDot url.data with
  | none => rfl
  | some p =>
      rw [hsp] at h
      simp only [] at h
      cases p with
      | mk base e =>
          simp only [] at h ⊢
          rw [if_neg]
          intro he
          rw [he] at h
          simp at h

/-- C4: a relative link destination ending in `.md` is rewritten to the
same path with extension `.html`; relative destinations with any other
extension, and all absolute destinations, pass through unchanged; every
non-link event passes through unchanged; and the rewritten destination
does not depend on the link type, so a reference-style link is rewritten
identically to an inline-style one. -/
theorem rewrite_links_spec (lt lt2 : LinkType) (base dest title id : String)
    (e : MdEvent) (es : List MdEvent) :
    (is_absolute_url (base ++ ".md") = false →
      rewriteRelativeLinks (MdEvent.startLink lt (base ++ ".md") title id :: es) =
        MdEvent.startLink lt (base ++ ".html") title id :: rewriteRelativeLinks es) ∧
    (is_absolute_url dest = false → md_dest dest = false →
      rewriteRelativeLinks (MdEvent.startLink lt dest title id :: es) =
        MdEvent.startLink lt dest title id :: rewriteRelativeLinks es) ∧
    (is_absolute_url dest = true →
      rewriteRelativeLinks (MdEvent.startLink lt dest title id :: es) =
        MdEvent.startLink lt dest title id :: rewriteRelativeLinks es) ∧
    ((∀ lt3 d t i, e ≠ MdEvent.startLink lt3 d t i) →
      rewriteRelativeLinks (e :: es) = e :: rewriteRelativeLinks es) ∧
    ((rewriteRelativeLinks [MdEvent.startLink lt dest title id]).map link_dest_out =
      (rewriteRelativeLinks [MdEvent.startLink lt2 dest title id]).map link_dest_out) := by
  refine ⟨?_, ?_, ?_, ?_, ?_⟩
  · intro habs
    simp only [rewriteRelativeLinks, List.map_cons, habs, Bool.false_eq_true, if_false]
    refine congrArg₂ _ ?_ rfl
    have hrw : rewrite_url (base ++ ".md") = base ++ ".html" := by
      unfold rewrite_url
      rw [string_data_append]
      rw [show (".md" : String).data = ['.', 'm', 'd'] from rfl]
      rw [splitLastDot_append_md]
      simp
    rw [hrw]
  · intro habs hmd
    simp only [rewriteRelativeLinks, List.map_cons, habs, Bool.false_eq_true, if_false]
    rw [rewrite_url_non_md dest hmd]
  · intro habs
    simp only [rewriteRelativeLinks, List.map_cons, habs, if_true]
  · intro hne
    cases e with
    | startLink lt3 d t i => exact absurd rfl (hne lt3 d t i)
    | startHeading l i c a => simp [rewriteRelativeLinks]
    | endHeading l => simp [rewriteRelativeLinks]
    | text s => simp [rewriteRelativeLinks]
    | other n => simp [rewriteRelativeLinks]
  · simp [rewriteRelativeLinks, link_dest_out]

/-- Scanning a heading body with no heading-end inside it buffers the
body plus the closing end event, folds the text events into the slug,
and leaves the rest of the input untouched. -/
theorem consume_go_spec (body : List MdEvent) (lvl : HeadingLevel)
    (rest : List MdEvent) (slug : String) :
    (∀ e ∈ body, is_end_heading e = false) →
    consume_go (body ++ MdEvent.endHeading lvl :: rest) slug =
      (body ++ [MdEvent.endHeading lvl], body.foldl slug_of_event slug, rest) := by
  induction body generalizing slug with
  | nil =>
      intro _
      rfl
  | cons e body ih =>
      intro h
      have he := h e (List.mem_cons_self e body)
      have hrest := fun e2 (he2 : e2 ∈ body) => h e2 (List.mem_cons_of_mem e he2)
      cases e with
      | endHeading l => simp [is_end_heading] at he
      | text s =>
          simp only [List.cons_append, consume_go, List.append_eq]
          rw [ih (slug_append slug s) hrest]
          simp [slug_of_event]
      | startHeading l i c a =>
          simp only [List.cons_append, consume_go, List.append_eq]
          rw [ih slug hrest]
          simp [slug_of_event]
      | startLink lt d t i =>
          simp only [List.cons_append, consume_go, List.append_eq]
          rw [ih slug hrest]
          simp [slug_of_event]
      | other n =>
          simp only [List.cons_append, consume_go, List.append_eq]
          rw [ih slug hrest]
          simp [slug_of_event]

/-- Buffered events are emitted verbatim, one per `next` call. -/
theorem addIds_run_cons (e : MdEvent) (brest iter : List MdEvent) :
    addIds_run (e :: brest) iter =
      (addIds_run brest iter).map (fun out => e :: out) := by
  rw [addIds_run]

/-- An exhausted adapter yields the empty stream. -/
theorem addIds_run_nil_nil : addIds_run [] [] = Except.ok [] := by
  rw [addIds_run]

/-- Any event other than a bare (ID-less) heading start passes straight
through the adapter. -/
theorem addIds_run_pass (e : MdEvent) (irest : List MdEvent)
    (hb : bare_heading_start e = false) :
    addIds_run [] (e :: irest) =
      (addIds_run [] irest).map (fun out => e :: out) := by
  cases e with
  | startHeading lvl id cls attrs =>
      cases id with
      | none => simp [bare_heading_start] at hb
      | some i => rw [addIds_run] <;> simp
  | endHeading lvl => rw [addIds_run] <;> simp
  | startLink lt d t i => rw [addIds_run] <;> simp
  | text s => rw [addIds_run] <;> simp
  | other n => rw [addIds_run] <;> simp

/-- Unfolding the adapter at a bare heading start, given what
`consume_heading` returns for the rest of the input. -/
theorem addIds_run_heading (lvl : HeadingLevel) (cls : List String)
    (attrs : List (String × Option String)) (irest buf : List MdEvent)
    (slug : String) (irest2 : List MdEvent)
    (h : consume_heading [] irest = Except.ok (buf, slug, irest2)) :
    addIds_run [] (MdEvent.startHeading lvl none cls attrs :: irest) =
      (addIds_run buf irest2).map
        (fun out => MdEvent.startHeading lvl (some slug) cls attrs :: out) := by
  rw [addIds_run]
  split
  · rename_i msg heq
    rw [h] at heq
    simp at heq
  · rename_i buf2 slug2 irest3 heq
    rw [h] at heq
    simp only [Except.ok.injEq, Prod.mk.injEq] at heq
    obtain ⟨h1, h2, h3⟩ := heq
    subst h1
    subst h2
    subst h3
    rfl

/-- Draining the buffer prepends it verbatim to whatever the adapter
produces for the remaining input. -/
theorem addIds_run_drain (buf iter : List MdEvent) :
    addIds_run buf iter = (addIds_run [] iter).map (fun out => buf ++ out) := by
  induction buf with
  | nil => cases h : addIds_run [] iter <;> simp [h, Except.map]
  | cons e buf ih =>
      rw [addIds_run_cons, ih]
      cases h : addIds_run [] iter <;> simp [h, Except.map]

/-- A block of events containing no bare heading start passes through
the adapter unchanged. -/
theorem addIds_run_pass_list (span tail : List MdEvent) :
    (∀ e ∈ span, bare_heading_start e = false) →
    addIds_run [] (span ++ tail) =
      (addIds_run [] tail).map (fun out => span ++ out) := by
  induction span with
  | nil =>
      intro _
      cases h : addIds_run [] tail <;> simp [h, Except.map]
  | cons e span ih =>
      intro hspan
      rw [List.cons_append]
      rw [addIds_run_pass e _ (hspan e (List.mem_cons_self e span))]
      rw [ih (fun e2 he2 => hspan e2 (List.mem_cons_of_mem e he2))]
      cases h : addIds_run [] tail <;> simp [h, Except.map]

/-- C5 counterexample: the run state of the slugifier resets at every
text-event boundary, so a heading with text events `"h "` and `" i"`
receives the ID `h--i`, not the slug `h-i` of its concatenated text
`"h  i"`; and a heading whose text is `"?"` (no alphanumerics) receives
the ID `-`, not the empty ID. -/
theorem heading_id_claim_counterexample :
    addHeadingIds [MdEvent.startHeading HeadingLevel.h1 none [] [],
        MdEvent.text "h ", MdEvent.text " i", MdEvent.endHeading HeadingLevel.h1] =
      Except.ok [MdEvent.startHeading HeadingLevel.h1 (some "h--i") [] [],
        MdEvent.text "h ", MdEvent.text " i", MdEvent.endHeading HeadingLevel.h1] ∧
    slug_append "" ("h " ++ " i") = "h-i" ∧
    ("h--i" : String) ≠ "h-i" ∧
    addHeadingIds [MdEvent.startHeading HeadingLevel.h1 none [] [],
        MdEvent.text "?", MdEvent.endHeading HeadingLevel.h1] =
      Except.ok [MdEvent.startHeading HeadingLevel.h1 (some "-") [] [],
        MdEvent.text "?", MdEvent.endHeading HeadingLevel.h1] ∧
    ("-" : String) ≠ "" := by
  refine ⟨?_, by decide, by decide, ?_, by decide⟩
  · unfold addHeadingIds
    rw [addIds_run_heading HeadingLevel.h1 [] [] _
        [MdEvent.text "h ", MdEvent.text " i", MdEvent.endHeading HeadingLevel.h1]
        "h--i" [] (by rfl)]
    rw [addIds_run_drain]
    rw [addIds_run_nil_nil]
    rfl
  · unfold addHeadingIds
    rw [addIds_run_heading HeadingLevel.h1 [] [] _
        [MdEvent.text "?", MdEvent.endHeading HeadingLevel.h1] "-" [] (by rfl)]
    rw [addIds_run_drain]
    rw [addIds_run_nil_nil]
    rfl

/-- C5 amended: for every heading lacking an explicit ID, the injected
ID is the fold of the per-text-event slugifier over the heading's body
in order (the run-collapsing state restarting at each text event), the
body is re-emitted unchanged, and the rest of the stream is processed
independently.  A heading with no text receives the empty ID; a heading
whose text events are nonempty but wholly non-alphanumeric receives an
ID made of hyphens. -/
theorem heading_id_amended (lvl : HeadingLevel) (cls : List String)
    (attrs : List (String × Option String)) (body rest : List MdEvent)
    (hbody : ∀ e ∈ body, is_end_heading e = false) :
    addHeadingIds
        (MdEvent.startHeading lvl none cls attrs ::
          (body ++ MdEvent.endHeading lvl :: rest)) =
      (addHeadingIds rest).map (fun out =>
        MdEvent.startHeading lvl (some (heading_slug body)) cls attrs ::
          (body ++ MdEvent.endHeading lvl :: out)) := by
  unfold addHeadingIds
  have hch : consume_heading [] (body ++ MdEvent.endHeading lvl :: rest) =
      Except.ok (body ++ [MdEvent.endHeading lvl], heading_slug body, rest) := by
    unfold consume_heading
    rw [consume_go_spec body lvl rest "" hbody]
    simp [heading_slug]
  rw [addIds_run_heading lvl cls attrs _ _ _ _ hch]
  rw [addIds_run_drain]
  cases h : addIds_run [] rest <;> simp [h, Except.map]

/-- Witness for C5 (amended): a single-text heading `h i` receives the
ID `h-i`. -/
theorem heading_id_amended_witness :
    addHeadingIds [MdEvent.startHeading HeadingLevel.h1 none [] [],
        MdEvent.text "h i", MdEvent.endHeading HeadingLevel.h1] =
      Except.ok [MdEvent.startHeading HeadingLevel.h1 (some "h-i") [] [],
        MdEvent.text "h i", MdEvent.endHeading HeadingLevel.h1] := by
  have hb : ∀ e ∈ [MdEvent.text "h i"], is_end_heading e = false := by
    intro e he
    simp only [List.mem_singleton] at he
    subst he
    rfl
  have h := heading_id_amended HeadingLevel.h1 [] [] [MdEvent.text "h i"] [] hb
  rw [show addHeadingIds ([] : List MdEvent) = Except.ok [] from addIds_run_nil_nil] at h
  exact h

/-- C6: a heading that already carries an explicit ID, together with its
whole span, passes through the injector unmodified; the original ID is
preserved verbatim and no slugification happens. -/
theorem explicit_id_passthrough (lvl : HeadingLevel) (cls : List String)
    (attrs : List (String × Option String)) (idStr : String)
    (span rest : List MdEvent)
    (hspan : ∀ e ∈ span, bare_heading_start e = false) :
    addHeadingIds
        (MdEvent.startHeading lvl (some idStr) cls attrs ::
          (span ++ MdEvent.endHeading lvl :: rest)) =
      (addHeadingIds rest).map (fun out =>
        MdEvent.startHeading lvl (some idStr) cls attrs ::
          (span ++ MdEvent.endHeading lvl :: out)) := by
  unfold addHeadingIds
  rw [addIds_run_pass _ _ (by rfl)]
  rw [addIds_run_pass_list span (MdEvent.endHeading lvl :: rest) hspan]
  rw [addIds_run_pass (MdEvent.endHeading lvl) rest (by rfl)]
  cases h : addIds_run [] rest <;> simp [h, Except.map]

/-- Witness for C6: a heading with explicit ID `x` is emitted exactly as
it came in. -/
theorem explicit_id_passthrough_witness :
    addHeadingIds [MdEvent.startHeading HeadingLevel.h1 (some "x") [] [],
        MdEvent.text "hi", MdEvent.endHeading HeadingLevel.h1] =
      Except.ok [MdEvent.startHeading HeadingLevel.h1 (some "x") [] [],
        MdEvent.text "hi", MdEvent.endHeading HeadingLevel.h1] := by
  have hs : ∀ e ∈ [MdEvent.text "hi"], bare_heading_start e = false := by
    intro e he
    simp only [List.mem_singleton] at he
    subst he
    rfl
  have h := explicit_id_passthrough HeadingLevel.h1 [] [] "x" [MdEvent.text "hi"] [] hs
  rw [show addHeadingIds ([] : List MdEvent) = Except.ok [] from addIds_run_nil_nil] at h
  exact h

/-- C7: a heading-start event nested inside another heading's span is
not detected: the injector buffers it like any other event and re-emits
it unchanged (without an ID), completing normally instead of raising the
"nested headings are not allowed" assertion — the assertion is only
evaluated on entry to `consume_heading`, which the iterator reaches only
after fully draining its buffer. -/
theorem nested_heading_silently_accepted :
    addHeadingIds [MdEvent.startHeading HeadingLevel.h1 none [] [],
        MdEvent.startHeading HeadingLevel.h2 none [] [], MdEvent.text "x",
        MdEvent.endHeading HeadingLevel.h2, MdEvent.endHeading HeadingLevel.h1] =
      Except.ok [MdEvent.startHeading HeadingLevel.h1 (some "x") [] [],
        MdEvent.startHeading HeadingLevel.h2 none [] [], MdEvent.text "x",
        MdEvent.endHeading HeadingLevel.h2, MdEvent.endHeading HeadingLevel.h1] := by
  unfold addHeadingIds
  rw [addIds_run_heading HeadingLevel.h1 [] [] _
      [MdEvent.startHeading HeadingLevel.h2 none [] [], MdEvent.text "x",
        MdEvent.endHeading HeadingLevel.h2] "x"
      [MdEvent.endHeading HeadingLevel.h1] (by rfl)]
  rw [addIds_run_drain]
  rw [addIds_run_pass (MdEvent.endHeading HeadingLevel.h1) [] (by rfl)]
  rw [addIds_run_nil_nil]
  rfl

/-- Appending the empty string on the right is the identity. -/
theorem string_append_empty (s : String) : s ++ "" = s := by
  cases s with
  | mk l => exact congrArg String.mk (List.append_nil l)

/-- Appending the empty string on the left is the identity. -/
theorem string_empty_append (s : String) : "" ++ s = s := by
  cases s with
  | mk l => rfl

/-- String concatenation is associative. -/
theorem string_append_assoc (a b c : String) :
    (a ++ b) ++ c = a ++ (b ++ c) := by
  cases a with
  | mk la =>
      cases b with
      | mk lb =>
          cases c with
          | mk lc => exact congrArg String.mk (List.append_assoc la lb lc)

/-- Appending to the title of the last entry of `acc ++ [en]` updates
exactly `en`. -/
theorem append_title_last_append (acc : List TocEntry) (en : TocEntry) (s : String) :
    append_title_last (acc ++ [en]) s =
      some (acc ++ [⟨en.level, en.id, en.title ++ s⟩]) := by
  induction acc with
  | nil => rfl
  | cons a acc ih =>
      cases acc with
      | nil => rfl
      | cons b acc2 =>
          simp only [List.cons_append] at ih ⊢
          simp only [append_title_last]
          rw [ih]
          rfl

/-- The collector, on a balanced stream, echoes the input and appends
exactly the specification-side entries; the second conjunct handles the
in-heading state, where the final partial entry is still being built. -/
theorem tocRun_spec_aux (events : List MdEvent) :
    (∀ acc, balanced_from false events = true →
      tocRun events false acc = Except.ok (events, acc ++ toc_spec events)) ∧
    (∀ acc en, balanced_from true events = true →
      tocRun events true (acc ++ [en]) =
        Except.ok (events,
          acc ++ ⟨en.level, en.id, en.title ++ (headingSpan events).1⟩ ::
            toc_spec (headingSpan events).2)) := by
  induction events with
  | nil =>
      constructor
      · intro acc hb
        simp [tocRun, toc_spec]
      · intro acc en hb
        simp [balanced_from] at hb
  | cons e rest ih =>
      constructor
      · intro acc hb
        cases e with
        | startHeading lvl id c a =>
            have hb2 : balanced_from true rest = true := by
              simpa [balanced_from] using hb
            simp only [tocRun]
            rw [ih.2 acc (TocEntry.mk lvl id "") hb2]
            simp [Except.map, toc_spec, string_empty_append]
        | endHeading l => simp [balanced_from] at hb
        | text s =>
            have hb2 : balanced_from false rest = true := by
              simpa [balanced_from] using hb
            simp only [tocRun, Bool.false_eq_true, if_false]
            rw [ih.1 acc hb2]
            simp [Except.map, toc_spec]
        | startLink lt d t i =>
            have hb2 : balanced_from false rest = true := by
              simpa [balanced_from] using hb
            simp only [tocRun]
            rw [ih.1 acc hb2]
            simp [Except.map, toc_spec]
        | other n =>
            have hb2 : balanced_from false rest = true := by
              simpa [balanced_from] using hb
            simp only [tocRun]
            rw [ih.1 acc hb2]
            simp [Except.map, toc_spec]
      · intro acc en hb
        obtain ⟨el, ei, et⟩ := en
        cases e with
        | startHeading lvl id c a => simp [balanced_from] at hb
        | endHeading l =>
            have hb2 : balanced_from false rest = true := by
              simpa [balanced_from] using hb
            simp only [tocRun, if_true]
            rw [ih.1 (acc ++ [TocEntry.mk el ei et]) hb2]
            simp [Except.map, headingSpan, string_append_empty]
        | text s =>
            have hb2 : balanced_from true rest = true := by
              simpa [balanced_from] using hb
            simp only [tocRun, if_true, append_title_last_append acc (TocEntry.mk el ei et) s]
            rw [ih.2 acc (TocEntry.mk el ei (et ++ s)) hb2]
            simp [Except.map, headingSpan, string_append_assoc]
        | startLink lt d t i =>
            have hb2 : balanced_from true rest = true := by
              simpa [balanced_from] using hb
            simp only [tocRun]
            rw [ih.2 acc (TocEntry.mk el ei et) hb2]
            simp [Except.map, headingSpan]
        | other n =>
            have hb2 : balanced_from true rest = true := by
              simpa [balanced_from] using hb
            simp only [tocRun]
            rw [ih.2 acc (TocEntry.mk el ei et) hb2]
            simp [Except.map, headingSpan]

/-- Counting heading starts, one event at a time. -/
theorem count_starts_cons (e : MdEvent) (rest : List MdEvent) :
    count_heading_starts (e :: rest) =
      count_heading_starts rest + (if is_start_heading e then 1 else 0) := by
  simp [count_heading_starts, List.countP_cons]

/-- Counting heading ends, one event at a time. -/
theorem count_ends_cons (e : MdEvent) (rest : List MdEvent) :
    count_heading_ends (e :: rest) =
      count_heading_ends rest + (if is_end_heading e then 1 else 0) := by
  simp [count_heading_ends, List.countP_cons]

/-- On a balanced stream the specification-side entry count matches the
number of heading starts, and starts match ends; the second conjunct
carries the in-heading generalization. -/
theorem toc_spec_counts_aux (events : List MdEvent) :
    (balanced_from false events = true →
      (toc_spec events).length = count_heading_starts events ∧
      count_heading_starts events = count_heading_ends events) ∧
    (balanced_from true events = true →
      (toc_spec (headingSpan events).2).length = count_heading_starts events ∧
      count_heading_starts events + 1 = count_heading_ends events) := by
  induction events with
  | nil =>
      constructor
      · intro _
        simp [toc_spec, count_heading_starts, count_heading_ends]
      · intro hb
        simp [balanced_from] at hb
  | cons e rest ih =>
      constructor
      · intro hb
        cases e with
        | startHeading lvl id c a =>
            have hb2 : balanced_from true rest = true := by
              simpa [balanced_from] using hb
            obtain ⟨h21, h22⟩ := ih.2 hb2
            constructor <;>
              simp [toc_spec, headingSpan, count_starts_cons, count_ends_cons,
                is_start_heading, is_end_heading] <;> omega
        | endHeading l => simp [balanced_from] at hb
        | text s =>
            have hb2 : balanced_from false rest = true := by
              simpa [balanced_from] using hb
            obtain ⟨h11, h12⟩ := ih.1 hb2
            constructor <;>
              simp [toc_spec, headingSpan, count_starts_cons, count_ends_cons,
                is_start_heading, is_end_heading] <;> omega
        | startLink lt d t i =>
            have hb2 : balanced_from false rest = true := by
              simpa [balanced_from] using hb
            obtain ⟨h11, h12⟩ := ih.1 hb2
            constructor <;>
              simp [toc_spec, headingSpan, count_starts_cons, count_ends_cons,
                is_start_heading, is_end_heading] <;> omega
        | other n =>
            have hb2 : balanced_from false rest = true := by
              simpa [balanced_from] using hb
            obtain ⟨h11, h12⟩ := ih.1 hb2
            constructor <;>
              simp [toc_spec, headingSpan, count_starts_cons, count_ends_cons,
                is_start_heading, is_end_heading] <;> omega
      · intro hb
        cases e with
        | startHeading lvl id c a => simp [balanced_from] at hb
        | endHeading l =>
            have hb2 : balanced_from false rest = true := by
              simpa [balanced_from] using hb
            obtain ⟨h11, h12⟩ := ih.1 hb2
            constructor <;>
              simp [toc_spec, headingSpan, count_starts_cons, count_ends_cons,
                is_start_heading, is_end_heading] <;> omega
        | text s =>
            have hb2 : balanced_from true rest = true := by
              simpa [balanced_from] using hb
            obtain ⟨h21, h22⟩ := ih.2 hb2
            constructor <;>
              simp [toc_spec, headingSpan, count_starts_cons, count_ends_cons,
                is_start_heading, is_end_heading] <;> omega
        | startLink lt d t i =>
            have hb2 : balanced_from true rest = true := by
              simpa [balanced_from] using hb
            obtain ⟨h21, h22⟩ := ih.2 hb2
            constructor <;>
              simp [toc_spec, headingSpan, count_starts_cons, count_ends_cons,
                is_start_heading, is_end_heading] <;> omega
        | other n =>
            have hb2 : balanced_from true rest = true := by
              simpa [balanced_from] using hb
            obtain ⟨h21, h22⟩ := ih.2 hb2
            constructor <;>
              simp [toc_spec, headingSpan, count_starts_cons, count_ends_cons,
                is_start_heading, is_end_heading] <;> omega

/-- C8: on a well-formed stream the collector emits exactly the input
events unchanged and in order, while appending to the caller-owned
vector one entry per heading in document order, carrying the heading's
level, its ID, and the concatenation of its text events as title; the
entry count equals the number of heading start events, which equals the
number of heading end events. -/
theorem toc_collector_spec (events : List MdEvent)
    (hb : balanced_from false events = true) :
    tocRun events false [] = Except.ok (events, toc_spec events) ∧
    (toc_spec events).length = count_heading_starts events ∧
    count_heading_starts events = count_heading_ends events := by
  refine ⟨?_, (toc_spec_counts_aux events).1 hb⟩
  have h := (tocRun_spec_aux events).1 [] hb
  simpa using h

/-- Witness for C8: a one-heading document yields exactly one entry with
its level, ID and title, and the stream passes through unchanged. -/
theorem toc_collector_spec_witness :
    tocRun [MdEvent.startHeading HeadingLevel.h1 (some "x") [] [],
        MdEvent.text "hi", MdEvent.endHeading HeadingLevel.h1, MdEvent.text "after"]
      false [] =
      Except.ok ([MdEvent.startHeading HeadingLevel.h1 (some "x") [] [],
        MdEvent.text "hi", MdEvent.endHeading HeadingLevel.h1, MdEvent.text "after"],
        [⟨HeadingLevel.h1, some "x", "hi"⟩]) := by
  have h := (toc_collector_spec [MdEvent.startHeading HeadingLevel.h1 (some "x") [] [],
      MdEvent.text "hi", MdEvent.endHeading HeadingLevel.h1, MdEvent.text "after"]
    (by decide)).1
  rw [h]
  simp [toc_spec, headingSpan, string_append_empty]

/-- Witness for C4: `bar.md` is rewritten to `bar.html` for both inline
and reference links, while an absolute `.md` link and a relative
non-`.md` link pass through unchanged. -/
theorem rewrite_links_spec_witness :
    rewriteRelativeLinks [MdEvent.startLink LinkType.inline ("bar" ++ ".md") "" ""] =
      [MdEvent.startLink LinkType.inline ("bar" ++ ".html") "" ""] ∧
    rewriteRelativeLinks [MdEvent.startLink LinkType.reference ("bar" ++ ".md") "" ""] =
      [MdEvent.startLink LinkType.reference ("bar" ++ ".html") "" ""] ∧
    rewriteRelativeLinks [MdEvent.startLink LinkType.inline "http://h/bar.md" "" ""] =
      [MdEvent.startLink LinkType.inline "http://h/bar.md" "" ""] ∧
    rewriteRelativeLinks [MdEvent.startLink LinkType.inline "./bar.png" "" ""] =
      [MdEvent.startLink LinkType.inline "./bar.png" "" ""] := by
  refine ⟨?_, ?_, ?_, ?_⟩
  · exact (rewrite_links_spec LinkType.inline LinkType.inline "bar" "x" "" ""
      (MdEvent.other 0) []).1 (by decide)
  · exact (rewrite_links_spec LinkType.reference LinkType.reference "bar" "x" "" ""
      (MdEvent.other 0) []).1 (by decide)
  · exact (rewrite_links_spec LinkType.inline LinkType.inline "b" "http://h/bar.md" "" ""
      (MdEvent.other 0) []).2.2.1 (by decide)
  · exact (rewrite_links_spec LinkType.inline LinkType.inline "b" "./bar.png" "" ""
      (MdEvent.other 0) []).2.1 (by decide) (by decide)

/-- C9: starting from an idle state (the first event lies outside the
debounce window of the watch's start), two qualifying events closer
together than the window produce exactly one reload signal — the second
is dropped, not queued, leaving the debounce timestamp at the first
event — while two qualifying events farther apart than the window
produce two signals. -/
theorem watch_debounce_spec (bases : List (List String)) (t0 t1 t2 : Nat)
    (e1 e2 : Option FsEvent)
    (h1 : qualifying bases e1 = true) (h2 : qualifying bases e2 = true)
    (hfirst : DEBOUNCE_INTERVAL ≤ t1 - t0) :
    (t2 - t1 < DEBOUNCE_INTERVAL →
      (run_events bases t0 [(t1, e1), (t2, e2)]).2 = 1 ∧
      (run_events bases t0 [(t1, e1), (t2, e2)]).1 = t1) ∧
    (DEBOUNCE_INTERVAL < t2 - t1 →
      (run_events bases t0 [(t1, e1), (t2, e2)]).2 = 2) := by
  have hs1 : handle_event bases t0 t1 e1 = (t1, true) := by
    unfold handle_event
    rw [if_neg (by omega), if_pos h1]
  constructor
  · intro hclose
    have hs2 : handle_event bases t1 t2 e2 = (t1, false) := by
      unfold handle_event
      rw [if_pos (by omega)]
    simp [run_events, hs1, hs2]
  · intro hfar
    have hs2 : handle_event bases t1 t2 e2 = (t2, true) := by
      unfold handle_event
      rw [if_neg (by omega), if_pos h2]
    simp [run_events, hs1, hs2]

/-- Witness for C9: with the watch rooted at the base directory and data
modifications to `note.md` at 100ms and 150ms, one signal is sent; at
100ms and 250ms, two signals are sent. -/
theorem watch_debounce_spec_witness :
    (run_events [[]] 0
        [(100, some (FsEvent.mk FsEventKind.modifyData [["note.md"]])),
          (150, some (FsEvent.mk FsEventKind.modifyData [["note.md"]]))]).2 = 1 ∧
    (run_events [[]] 0
        [(100, some (FsEvent.mk FsEventKind.modifyData [["note.md"]])),
          (250, some (FsEvent.mk FsEventKind.modifyData [["note.md"]]))]).2 = 2 :=
  ⟨((watch_debounce_spec [[]] 0 100 150
        (some (FsEvent.mk FsEventKind.modifyData [["note.md"]]))
        (some (FsEvent.mk FsEventKind.modifyData [["note.md"]]))
        (by decide) (by decide) (by decide)).1 (by decide)).1,
    (watch_debounce_spec [[]] 0 100 250
        (some (FsEvent.mk FsEventKind.modifyData [["note.md"]]))
        (some (FsEvent.mk FsEventKind.modifyData [["note.md"]]))
        (by decide) (by decide) (by decide)).2 (by decide)⟩

/-- Each pool step preserves the accounting invariant: the submitted
tasks are exactly the queued, running and completed ones together. -/
theorem pool_step_invariant (cap threads : Nat) (s s2 : PoolState)
    (hstep : PoolStep cap threads s s2)
    (hinv : (↑s.submitted : Multiset Nat) = ↑s.queued + ↑s.running + ↑s.done) :
    (↑s2.submitted : Multiset Nat) = ↑s2.queued + ↑s2.running + ↑s2.done := by
  cases hstep with
  | submit t hopen hcap =>
      simp only [← Multiset.coe_add]
      rw [hinv]
      abel
  | finishBody hopen => simpa using hinv
  | take t rest hq hw =>
      rw [hinv, hq]
      simp only [← Multiset.cons_coe, ← Multiset.singleton_add]
      abel
  | finish t ht =>
      have hr : (↑s.running : Multiset Nat) =
          {t} + (↑s.running : Multiset Nat).erase t := by
        rw [Multiset.singleton_add, Multiset.cons_erase (Multiset.mem_coe.mpr ht)]
      conv_lhs => rw [hinv, hr]
      rw [← Multiset.cons_coe, ← Multiset.coe_erase, ← Multiset.singleton_add]
      abel

/-- Every reachable pool state satisfies the accounting invariant. -/
theorem pool_reach_invariant (cap threads : Nat) (s : PoolState)
    (hreach : PoolReach cap threads initState s) :
    (↑s.submitted : Multiset Nat) = ↑s.queued + ↑s.running + ↑s.done := by
  induction hreach with
  | refl => rfl
  | tail hsteps hstep ih => exact pool_step_invariant _ _ _ _ hstep ih

/-- C10: in every interleaving of submissions, worker receives and task
completions that reaches a state where the scope has exited (body
returned, channel drained and closed, all workers joined), the completed
tasks are exactly the submitted ones — every previously submitted task
has observably completed. -/
theorem pool_scope_completion (cap threads : Nat) (s : PoolState)
    (hreach : PoolReach cap threads initState s)
    (hexit : scope_exited s) :
    s.submitted.Perm s.done ∧ ∀ t ∈ s.submitted, t ∈ s.done := by
  have hinv := pool_reach_invariant cap threads s hreach
  obtain ⟨hb, hq, hr⟩ := hexit
  rw [hq, hr] at hinv
  have hcoe : (↑s.submitted : Multiset Nat) = ↑s.done := by simpa using hinv
  have hperm : s.submitted.Perm s.done := Multiset.coe_eq_coe.mp hcoe
  exact ⟨hperm, fun t ht => hperm.mem_iff.mp ht⟩

/-- Witness for C10: two tasks are submitted, the body returns, and two
workers pick up and complete both; after the scope exits the completed
set is a permutation of the submitted set. -/
theorem pool_scope_completion_witness :
    (PoolState.mk [] [] [2, 1] [1, 2] true).submitted.Perm
      (PoolState.mk [] [] [2, 1] [1, 2] true).done := by
  have h1 : PoolStep 4 2 initState (PoolState.mk [1] [] [] [1] false) :=
    PoolStep.submit initState 1 rfl (by decide)
  have h2 : PoolStep 4 2 (PoolState.mk [1] [] [] [1] false)
      (PoolState.mk [1, 2] [] [] [1, 2] false) :=
    PoolStep.submit (PoolState.mk [1] [] [] [1] false) 2 rfl (by decide)
  have h3 : PoolStep 4 2 (PoolState.mk [1, 2] [] [] [1, 2] false)
      (PoolState.mk [1, 2] [] [] [1, 2] true) :=
    PoolStep.finishBody (PoolState.mk [1, 2] [] [] [1, 2] false) rfl
  have h4 : PoolStep 4 2 (PoolState.mk [1, 2] [] [] [1, 2] true)
      (PoolState.mk [2] [1] [] [1, 2] true) :=
    PoolStep.take (PoolState.mk [1, 2] [] [] [1, 2] true) 1 [2] rfl (by decide)
  have h5 : PoolStep 4 2 (PoolState.mk [2] [1] [] [1, 2] true)
      (PoolState.mk [2] [] [1] [1, 2] true) :=
    PoolStep.finish (PoolState.mk [2] [1] [] [1, 2] true) 1 (by decide)
  have h6 : PoolStep 4 2 (PoolState.mk [2] [] [1] [1, 2] true)
      (PoolState.mk [] [2] [1] [1, 2] true) :=
    PoolStep.take (PoolState.mk [2] [] [1] [1, 2] true) 2 [] rfl (by decide)
  have h7 : PoolStep 4 2 (PoolState.mk [] [2] [1] [1, 2] true)
      (PoolState.mk [] [] [2, 1] [1, 2] true) :=
    PoolStep.finish (PoolState.mk [] [2] [1] [1, 2] true) 2 (by decide)
  have hr : PoolReach 4 2 initState (PoolState.mk [] [] [2, 1] [1, 2] true) :=
    Relation.ReflTransGen.head h1 (Relation.ReflTransGen.head h2
      (Relation.ReflTransGen.head h3 (Relation.ReflTransGen.head h4
        (Relation.ReflTransGen.head h5 (Relation.ReflTransGen.head h6
          (Relation.ReflTransGen.head h7 Relation.ReflTransGen.refl))))))
  exact (pool_scope_completion 4 2 _ hr ⟨rfl, rfl, rfl⟩).1

end Memoize
